import Mathlib

/-!
Verification of the gitui help-overlay component (`src/components/help.rs`).

The component aggregates command descriptors (`set_cmds`), owns a selection
cursor over the aggregated list (`move_selection`), dispatches key events
modally on visibility (`event`), reports its own command availability
(`commands`), and lays the list out as grouped text (`get_text`).

External collaborators that are not part of the given source (the
`CommandText`/`CommandInfo` structs with their derived ordering, the key
constants, the command label constants, and the `asyncgit::hash` function)
are modelled from the specification, as noted in their doc comments.
-/

/-- Modelled from the spec: the Command Descriptor display metadata
(`CommandText` lives outside the given source). Attributes: label (`name`),
long description (`desc`), category key (`group`), and the
`hidden_from_help` exclusion flag (`hide_help`). -/
structure CommandText where
  name : String
  desc : String
  group : String
  hide_help : Bool
deriving DecidableEq, Repr

/-- Modelled from the spec: a command availability record (`CommandInfo`
lives outside the given source). Carries the descriptor `text`, two
availability booleans as in `CommandInfo::new(text, enabled, available)`,
and the `order` tie-break rank within a group. -/
structure CommandInfo where
  text : CommandText
  enabled : Bool
  available : Bool
  order : Int
deriving DecidableEq, Repr

/-- Modelled from the spec: `CommandInfo::new` sets the two booleans and a
default order of 0. -/
def CommandInfo.new (text : CommandText) (enabled : Bool)
    (available : Bool) : CommandInfo :=
  { text := text, enabled := enabled, available := available, order := 0 }

/-- Lexicographic comparison of character lists by code point; this is the
order underlying the derived `Ord` on Rust string slices (UTF-8 byte order
coincides with code-point order). -/
def charsLe : List Char → List Char → Bool
  | [], _ => true
  | _ :: _, [] => false
  | a :: as, b :: bs =>
    if a.toNat = b.toNat then charsLe as bs
    else decide (a.toNat < b.toNat)

/-- String comparison via the underlying character list. -/
def strLe (a b : String) : Bool := charsLe a.data b.data

/-- Boolean order with `false < true`, as in Rust `bool: Ord`. -/
def boolLe (a b : Bool) : Bool := !a || b

/-- Lexicographic combination of comparisons on a pair: compare the first
components, break ties with the second comparison. This is the semantics
of a Rust `derive(Ord)` on consecutive struct fields. -/
def lexLe [DecidableEq α] (leA : α → α → Bool) (leB : β → β → Bool)
    (p q : α × β) : Bool :=
  if p.1 = q.1 then leB p.2 q.2 else leA p.1 q.1

/-- The field tuple of a descriptor, in declaration order. -/
def textKey (a : CommandText) : String × String × String × Bool :=
  (a.name, a.desc, a.group, a.hide_help)

/-- Modelled from the spec: the derived lexicographic `Ord` on
`CommandText` (descriptor identity as the sort key of `set_cmds`). -/
def textLe (a b : CommandText) : Bool :=
  lexLe strLe (lexLe strLe (lexLe strLe boolLe)) (textKey a) (textKey b)

/-- Stable insertion of `a` into `l`: `a` goes after every element `b`
with `le b a`, so later-inserted ties land behind earlier ones. -/
def insertLe (le : α → α → Bool) (a : α) : List α → List α
  | [] => [a]
  | b :: l => if le b a then b :: insertLe le a l else a :: b :: l

/-- Stable sort by repeated insertion; embeds Rust `sort_by_key` /
itertools `sorted_by_key`, both of which are stable sorts (a stable sort
is extensionally unique given a total transitive `le`). -/
def sortByKey (le : α → α → Bool) (l : List α) : List α :=
  l.foldl (fun acc a => insertLe le a acc) []

/-- Tail of Rust `Vec::dedup_by_key`: `k` is the key of the most recently
retained element; an element whose key equals `k` is dropped, otherwise it
is retained and becomes the new reference. -/
def dedupKeyAux (key : α → β) [DecidableEq β] (k : β) : List α → List α
  | [] => []
  | a :: l =>
    if key a = k then dedupKeyAux key k l
    else a :: dedupKeyAux key (key a) l

/-- Rust `Vec::dedup_by_key`: removes all but the first of consecutive
elements that resolve to the same key. -/
def dedupByKey (key : α → β) [DecidableEq β] : List α → List α
  | [] => []
  | a :: l => a :: dedupKeyAux key (key a) l

/-- `HelpComponent::set_cmds` as a function on the incoming batch: drop
descriptors hidden from help, sort by descriptor identity, remove
consecutive duplicates, then stable-sort by the hash of the group key.
The hash (`asyncgit::hash`, outside the given source) is a parameter. -/
def set_cmds (hash : String → Nat) (cmds : List CommandInfo) :
    List CommandInfo :=
  let kept := cmds.filter (fun e => !e.text.hide_help)
  let sorted := sortByKey (fun a b => textLe a.text b.text) kept
  let deduped := dedupByKey (fun e => e.text) sorted
  sortByKey (fun a b => decide (hash a.text.group ≤ hash b.text.group))
    deduped

/-- Modelled from the spec: a concrete deterministic stand-in for the
external hash, used to instantiate witnesses. -/
def demoHash (s : String) : Nat :=
  s.data.foldl (fun h c => h * 1114112 + c.toNat + 1) 7

/-- The help overlay state: the aggregated command list, the visibility
flag, and the selection cursor (a `u16` in the source, modelled as `Nat`
with explicit saturation at `U16_MAX`). The theme handle is an external
collaborator and carries no state relevant to the contract. -/
structure HelpComponent where
  cmds : List CommandInfo
  visible : Bool
  selection : Nat
deriving DecidableEq, Repr

/-- Upper bound of the `u16` selection cursor. -/
def U16_MAX : Nat := 65535

/-- `HelpComponent::new`: hidden, empty list, cursor 0. -/
def HelpComponent.new : HelpComponent :=
  { cmds := [], visible := false, selection := 0 }

/-- `Component::hide` for the overlay. -/
def HelpComponent.hide (s : HelpComponent) : HelpComponent :=
  { s with visible := false }

/-- `Component::show` for the overlay (infallible in the source). -/
def HelpComponent.show (s : HelpComponent) : HelpComponent :=
  { s with visible := true }

/-- `HelpComponent::move_selection`: saturating `u16` step, clamp by
`max(new, 0)` (a no-op on unsigned values, kept for fidelity), then clamp
to `len - 1` — but only when `u16::try_from(len.saturating_sub(1))`
succeeds, i.e. when `len - 1 ≤ U16_MAX`; otherwise the assignment is
skipped and the cursor is unchanged. -/
def move_selection (s : HelpComponent) (inc : Bool) : HelpComponent :=
  let new_selection :=
    if inc then min (s.selection + 1) U16_MAX else s.selection - 1
  let new_selection := max new_selection 0
  if s.cmds.length - 1 ≤ U16_MAX then
    { s with selection := min new_selection (s.cmds.length - 1) }
  else s

/-- Modelled from the spec: the key constants (`keys::EXIT_POPUP`,
`MOVE_DOWN`, `MOVE_UP`, `OPEN_HELP`, outside the given source) are four
distinct key events; `other` stands for any further key. -/
inductive Key where
  | exit_popup
  | move_down
  | move_up
  | open_help
  | other (code : Nat)
deriving DecidableEq, Repr

/-- Modelled from the spec: a crossterm input event — either a key event
or a non-keyboard event (resize, mouse). -/
inductive Event where
  | key (k : Key)
  | resize (w h : Nat)
  | mouse (m : Nat)
deriving DecidableEq, Repr

/-- `Component::event` for the overlay: while visible, match the key
against close/down/up (any other event is a no-op) and report the event
consumed; while hidden, only the open-help key is consumed (showing the
overlay); everything else is reported unconsumed. -/
def HelpComponent.event (s : HelpComponent) (ev : Event) :
    HelpComponent × Bool :=
  if s.visible then
    (match ev with
     | Event.key Key.exit_popup => s.hide
     | Event.key Key.move_down => move_selection s true
     | Event.key Key.move_up => move_selection s false
     | _ => s,
     true)
  else if ev = Event.key Key.open_help then (s.show, true)
  else (s, false)

/-- Whether the component blocks command reporting of the components
below it. -/
inductive CommandBlocking where
  | blocking
  | passingOn
deriving DecidableEq, Repr

/-- `visibility_blocking`: blocking exactly when visible. -/
def visibility_blocking (s : HelpComponent) : CommandBlocking :=
  if s.visible then CommandBlocking.blocking else CommandBlocking.passingOn

/-- Modelled from the spec: the `strings::commands::SCROLL` label constant
(outside the given source). -/
def SCROLL : CommandText :=
  ⟨"Scroll", "scroll up or down in focused view", "General", false⟩

/-- Modelled from the spec: the `strings::commands::CLOSE_POPUP` label
constant (outside the given source). -/
def CLOSE_POPUP : CommandText :=
  ⟨"Close", "close overlay", "General", false⟩

/-- Modelled from the spec: the `strings::commands::HELP_OPEN` label
constant (outside the given source). -/
def HELP_OPEN : CommandText :=
  ⟨"Help", "open this help screen", "General", false⟩

/-- `Component::commands` for the overlay: clear the accumulated list when
visible and not forced, push scroll and close-popup when visible, push
open-help with order 99 when hidden or forced, and return
`visibility_blocking`. -/
def HelpComponent.commands (s : HelpComponent) (out : List CommandInfo)
    (force_all : Bool) : List CommandInfo × CommandBlocking :=
  let out := if s.visible && !force_all then [] else out
  let out :=
    if s.visible then
      out ++ [CommandInfo.new SCROLL true true,
              CommandInfo.new CLOSE_POPUP true true]
    else out
  let out :=
    if !s.visible || force_all then
      out ++ [{ CommandInfo.new HELP_OPEN true true with order := 99 }]
    else out
  (out, visibility_blocking s)

/-- The popup size constant from `draw` (`SIZE: (u16, u16) = (65, 24)`). -/
def SIZE : Nat × Nat := (65, 24)

/-- `scroll_threshold` in `draw`: one third of the popup height. -/
def scroll_threshold : Nat := SIZE.2 / 3

/-- The scroll offset computed in `draw`:
`selection.saturating_sub(scroll_threshold)`. -/
def draw_scroll (selection : Nat) : Nat := selection - scroll_threshold

/-- itertools `group_by`: splits a list into maximal runs of consecutive
elements sharing a key. -/
def groupByKey (key : α → β) [DecidableEq β] : List α → List (β × List α)
  | [] => []
  | a :: l =>
    match groupByKey key l with
    | [] => [(key a, [a])]
    | (k, blk) :: more =>
      if key a = k then (key a, a :: blk) :: more
      else (key a, [a]) :: (k, blk) :: more

/-- The per-group structure of `get_text`: consecutive runs by group key,
each run sorted by `order` (itertools `sorted_by_key`, a stable sort). -/
def get_textBlocks (cmds : List CommandInfo) :
    List (String × List CommandInfo) :=
  (groupByKey (fun e => e.text.group) cmds).map
    (fun p => (p.1, sortByKey (fun a b => decide (a.order ≤ b.order)) p.2))

/-- One line of the help text body: a reversed-style group header, a
command entry line with its selection flag, or the indented description
line emitted below the selected entry. -/
inductive HelpLine where
  | header (group : String)
  | entry (e : CommandInfo) (selected : Bool)
  | description (d : String)
deriving DecidableEq, Repr

/-- `HelpComponent::get_text`: walk the groups, emit one header per group
followed by the entries of that group in `order` rank; the running
`processed` counter is the flattened entry position compared against the
cursor, and the selected entry gets an extra description line. -/
def get_text (cmds : List CommandInfo) (selection : Nat) : List HelpLine :=
  ((get_textBlocks cmds).foldl
    (fun (acc : List HelpLine × Nat) blk =>
      blk.2.foldl
        (fun (p : List HelpLine × Nat) e =>
          let is_selected := selection = p.2
          let withEntry := p.1 ++ [HelpLine.entry e is_selected]
          let withDesc :=
            if is_selected then
              withEntry ++ [HelpLine.description e.text.desc]
            else withEntry
          (withDesc, p.2 + 1))
        (acc.1 ++ [HelpLine.header blk.1], acc.2))
    ([], 0)).1

/-- The sequence of group keys of an aggregated list with consecutive
repeats collapsed: one element per contiguous run of equal groups. Its
having no duplicate is exactly "entries sharing a group are adjacent". -/
def groupsOf (l : List CommandInfo) : List String :=
  dedupByKey id (l.map (fun e => e.text.group))

/-- An externally triggered mutation of the overlay state: a cursor move
or a list replacement through `set_cmds`. -/
inductive HelpOp where
  | move (inc : Bool)
  | setCmds (batch : List CommandInfo)

/-- Apply one operation to the state. -/
def applyOp (hash : String → Nat) (s : HelpComponent) :
    HelpOp → HelpComponent
  | HelpOp.move inc => move_selection s inc
  | HelpOp.setCmds batch => { s with cmds := set_cmds hash batch }

/-- Run a sequence of operations from a starting state. -/
def runOps (hash : String → Nat) (s : HelpComponent)
    (ops : List HelpOp) : HelpComponent :=
  ops.foldl (applyOp hash) s

/-- The hash distinguishes the group keys occurring in a batch (true of
any group set without a hash collision; the spec delegates the hash to an
external collaborator). -/
def GroupInj (hash : String → Nat) (l : List CommandInfo) : Prop :=
  ∀ e ∈ l, ∀ f ∈ l, hash e.text.group = hash f.text.group →
    e.text.group = f.text.group

/-- Entries of a common group occur in ascending `order`, wherever they
sit in the list. -/
def groupOrderSorted (l : List CommandInfo) : Prop :=
  l.Pairwise (fun a b => a.text.group = b.text.group → a.order ≤ b.order)

/-- A concrete descriptor: group X, order 1. -/
def cA : CommandInfo := ⟨⟨"A", "da", "X", false⟩, true, true, 1⟩

/-- A concrete descriptor: group X, order 0. -/
def cB : CommandInfo := ⟨⟨"B", "db", "X", false⟩, true, true, 0⟩

/-- A concrete descriptor: group Y, order 0. -/
def cC : CommandInfo := ⟨⟨"C", "dc", "Y", false⟩, true, true, 0⟩

/-- A concrete descriptor that is hidden from help. -/
def cHidden : CommandInfo := ⟨⟨"H", "dh", "X", true⟩, true, true, 0⟩

/-! ### Properties of the comparison functions -/

theorem charsLe_total : ∀ x y : List Char,
    charsLe x y = true ∨ charsLe y x = true := by
  intro x
  induction x with
  | nil => intro y; left; rfl
  | cons a as ih =>
    intro y
    cases y with
    | nil => right; rfl
    | cons b bs =>
      simp only [charsLe]
      by_cases h : a.toNat = b.toNat
      · simp [h]
        exact ih bs
      · have h2 : ¬ b.toNat = a.toNat := fun hh => h hh.symm
        rw [if_neg h, if_neg h2]
        simp only [decide_eq_true_eq]
        omega

theorem charsLe_trans : ∀ x y z : List Char,
    charsLe x y = true → charsLe y z = true → charsLe x z = true := by
  intro x
  induction x with
  | nil => intro y z _ _; rfl
  | cons a as ih =>
    intro y z h1 h2
    cases y with
    | nil => simp [charsLe] at h1
    | cons b bs =>
      cases z with
      | nil => simp [charsLe] at h2
      | cons c cs =>
        simp only [charsLe] at h1 h2 ⊢
        by_cases hab : a.toNat = b.toNat
        · by_cases hbc : b.toNat = c.toNat
          · have hac : a.toNat = c.toNat := hab.trans hbc
            simp [hab, hbc, hac] at h1 h2 ⊢
            exact ih bs cs h1 h2
          · have hac : ¬ a.toNat = c.toNat := by omega
            simp [hab, hbc, hac] at h1 h2 ⊢
            omega
        · by_cases hbc : b.toNat = c.toNat
          · have hac : ¬ a.toNat = c.toNat := by omega
            simp [hab, hbc, hac] at h1 h2 ⊢
            omega
          · simp [hab, hbc] at h1 h2
            by_cases hac : a.toNat = c.toNat
            · exfalso; omega
            · simp [hac]
              omega

theorem charsLe_antisymm : ∀ x y : List Char,
    charsLe x y = true → charsLe y x = true → x = y := by
  intro x
  induction x with
  | nil =>
    intro y h1 h2
    cases y with
    | nil => rfl
    | cons b bs => simp [charsLe] at h2
  | cons a as ih =>
    intro y h1 h2
    cases y with
    | nil => simp [charsLe] at h1
    | cons b bs =>
      by_cases hab : a.toNat = b.toNat
      · have hchar : a = b := Char.ext (UInt32.ext hab)
        simp only [charsLe, hab, if_pos rfl, if_true] at h1 h2
        rw [hchar, ih bs (by simpa [hab] using h1) (by simpa [hab.symm] using h2)]
      · have hba : ¬ b.toNat = a.toNat := fun hh => hab hh.symm
        simp [charsLe, hab, hba] at h1 h2
        omega

theorem strLe_total : ∀ x y : String, strLe x y = true ∨ strLe y x = true :=
  fun x y => charsLe_total x.data y.data

theorem strLe_trans : ∀ x y z : String,
    strLe x y = true → strLe y z = true → strLe x z = true :=
  fun x y z h1 h2 => charsLe_trans x.data y.data z.data h1 h2

theorem strLe_antisymm : ∀ x y : String,
    strLe x y = true → strLe y x = true → x = y :=
  fun x y h1 h2 => String.ext (charsLe_antisymm x.data y.data h1 h2)

theorem boolLe_total : ∀ x y : Bool, boolLe x y = true ∨ boolLe y x = true := by
  decide

theorem boolLe_trans : ∀ x y z : Bool,
    boolLe x y = true → boolLe y z = true → boolLe x z = true := by decide

theorem boolLe_antisymm : ∀ x y : Bool,
    boolLe x y = true → boolLe y x = true → x = y := by decide

theorem lexLe_total [DecidableEq α] {leA : α → α → Bool} {leB : β → β → Bool}
    (hA : ∀ x y, leA x y = true ∨ leA y x = true)
    (hB : ∀ x y, leB x y = true ∨ leB y x = true) :
    ∀ p q : α × β, lexLe leA leB p q = true ∨ lexLe leA leB q p = true := by
  intro p q
  unfold lexLe
  by_cases h : p.1 = q.1
  · simp [h]
    exact hB p.2 q.2
  · have h2 : ¬ q.1 = p.1 := fun hh => h hh.symm
    simp [h, h2]
    exact hA p.1 q.1

theorem lexLe_trans [DecidableEq α] {leA : α → α → Bool} {leB : β → β → Bool}
    (hAt : ∀ x y z, leA x y = true → leA y z = true → leA x z = true)
    (hAa : ∀ x y, leA x y = true → leA y x = true → x = y)
    (hBt : ∀ x y z, leB x y = true → leB y z = true → leB x z = true) :
    ∀ p q r : α × β, lexLe leA leB p q = true → lexLe leA leB q r = true →
      lexLe leA leB p r = true := by
  intro p q r h1 h2
  unfold lexLe at h1 h2 ⊢
  by_cases hpq : p.1 = q.1
  · by_cases hqr : q.1 = r.1
    · have hpr : p.1 = r.1 := hpq.trans hqr
      simp [hpq, hqr, hpr] at h1 h2 ⊢
      exact hBt _ _ _ h1 h2
    · have hpr : ¬ p.1 = r.1 := by rw [hpq]; exact hqr
      simp [hpq, hqr, hpr] at h1 h2 ⊢
      exact h2
  · by_cases hqr : q.1 = r.1
    · have hpr : ¬ p.1 = r.1 := fun h => hpq (h.trans hqr.symm)
      simp [hpq, hqr, hpr] at h1 h2 ⊢
      exact h1
    · simp [hpq, hqr] at h1 h2
      by_cases hpr : p.1 = r.1
      · exfalso
        rw [← hpr] at h2
        exact hpq (hAa _ _ h1 h2)
      · simp [hpr]
        exact hAt _ _ _ h1 h2

theorem lexLe_antisymm [DecidableEq α] {leA : α → α → Bool} {leB : β → β → Bool}
    (hAa : ∀ x y, leA x y = true → leA y x = true → x = y)
    (hBa : ∀ x y, leB x y = true → leB y x = true → x = y) :
    ∀ p q : α × β, lexLe leA leB p q = true → lexLe leA leB q p = true →
      p = q := by
  intro p q h1 h2
  unfold lexLe at h1 h2
  by_cases h : p.1 = q.1
  · rw [if_pos h] at h1
    rw [if_pos h.symm] at h2
    exact Prod.ext_iff.mpr ⟨h, hBa _ _ h1 h2⟩
  · have hsym : ¬ q.1 = p.1 := fun hh => h hh.symm
    rw [if_neg h] at h1
    rw [if_neg hsym] at h2
    exact absurd (hAa _ _ h1 h2) h

theorem textKey_inj {a b : CommandText} (h : textKey a = textKey b) :
    a = b := by
  cases a
  cases b
  simp only [textKey, Prod.mk.injEq] at h
  obtain ⟨h1, h2, h3, h4⟩ := h
  subst h1
  subst h2
  subst h3
  subst h4
  rfl

theorem textLe_total : ∀ a b : CommandText,
    textLe a b = true ∨ textLe b a = true :=
  fun a b =>
    lexLe_total strLe_total
      (lexLe_total strLe_total (lexLe_total strLe_total boolLe_total))
      (textKey a) (textKey b)

theorem textLe_trans : ∀ a b c : CommandText,
    textLe a b = true → textLe b c = true → textLe a c = true :=
  fun a b c h1 h2 =>
    lexLe_trans strLe_trans strLe_antisymm
      (lexLe_trans strLe_trans strLe_antisymm
        (lexLe_trans strLe_trans strLe_antisymm boolLe_trans))
      (textKey a) (textKey b) (textKey c) h1 h2

theorem textLe_antisymm : ∀ a b : CommandText,
    textLe a b = true → textLe b a = true → a = b :=
  fun a b h1 h2 =>
    textKey_inj
      (lexLe_antisymm strLe_antisymm
        (lexLe_antisymm strLe_antisymm
          (lexLe_antisymm strLe_antisymm boolLe_antisymm))
        (textKey a) (textKey b) h1 h2)

/-! ### Properties of the stable insertion sort -/

theorem insertLe_perm (le : α → α → Bool) (a : α) (l : List α) :
    (insertLe le a l).Perm (a :: l) := by
  induction l with
  | nil => exact List.Perm.refl [a]
  | cons b l ih =>
    simp only [insertLe]
    by_cases h : le b a = true
    · simp only [h, if_true]
      exact (List.Perm.cons b ih).trans (List.Perm.swap a b l)
    · simp only [h, if_false]
      exact List.Perm.refl _

theorem foldl_insertLe_perm (le : α → α → Bool) :
    ∀ (l acc : List α),
      (l.foldl (fun acc a => insertLe le a acc) acc).Perm (acc ++ l) := by
  intro l
  induction l with
  | nil => intro acc; simp
  | cons a l ih =>
    intro acc
    simp only [List.foldl_cons]
    refine (ih (insertLe le a acc)).trans ?_
    refine ((insertLe_perm le a acc).append_right l).trans ?_
    exact List.perm_middle.symm

theorem sortByKey_perm (le : α → α → Bool) (l : List α) :
    (sortByKey le l).Perm l := by
  simpa [sortByKey] using foldl_insertLe_perm le l []

theorem insertLe_pairwise {le : α → α → Bool}
    (htot : ∀ x y, le x y = true ∨ le y x = true)
    (htrans : ∀ x y z, le x y = true → le y z = true → le x z = true)
    (a : α) : ∀ {l : List α}, l.Pairwise (fun x y => le x y = true) →
      (insertLe le a l).Pairwise (fun x y => le x y = true) := by
  intro l
  induction l with
  | nil => intro _; simp [insertLe]
  | cons b l ih =>
    intro h
    obtain ⟨hb, hl⟩ := List.pairwise_cons.mp h
    simp only [insertLe]
    by_cases hba : le b a = true
    · simp only [hba, if_true]
      refine List.pairwise_cons.mpr ⟨?_, ih hl⟩
      intro x hx
      rcases List.mem_cons.mp ((insertLe_perm le a l).mem_iff.mp hx) with rfl | hx
      · exact hba
      · exact hb x hx
    · have hab : le a b = true := (htot a b).resolve_right hba
      simp only [hba, if_false]
      refine List.pairwise_cons.mpr ⟨?_, h⟩
      intro x hx
      rcases List.mem_cons.mp hx with rfl | hx
      · exact hab
      · exact htrans a b x hab (hb x hx)

theorem sortByKey_pairwise {le : α → α → Bool}
    (htot : ∀ x y, le x y = true ∨ le y x = true)
    (htrans : ∀ x y z, le x y = true → le y z = true → le x z = true)
    (l : List α) :
    (sortByKey le l).Pairwise (fun x y => le x y = true) := by
  suffices h : ∀ (l acc : List α),
      acc.Pairwise (fun x y => le x y = true) →
      (l.foldl (fun acc a => insertLe le a acc) acc).Pairwise
        (fun x y => le x y = true) by
    exact h l [] (List.Pairwise.nil)
  intro l
  induction l with
  | nil => intro acc h; simpa using h
  | cons a l ih =>
    intro acc h
    exact ih _ (insertLe_pairwise htot htrans a h)

/-! ### Properties of the consecutive dedup -/

theorem dedupKeyAux_sublist (key : α → β) [DecidableEq β] :
    ∀ (l : List α) (k : β), (dedupKeyAux key k l).Sublist l := by
  intro l
  induction l with
  | nil => intro k; simp [dedupKeyAux]
  | cons a l ih =>
    intro k
    simp only [dedupKeyAux]
    by_cases h : key a = k
    · simp only [h, if_true]
      exact (ih k).cons a
    · simp only [h, if_false]
      exact (ih (key a)).cons₂ a

theorem dedupByKey_sublist (key : α → β) [DecidableEq β] (l : List α) :
    (dedupByKey key l).Sublist l := by
  cases l with
  | nil => simp [dedupByKey]
  | cons a l =>
    simp only [dedupByKey]
    exact (dedupKeyAux_sublist key l (key a)).cons₂ a

theorem dedupKeyAux_mem_key (key : α → β) [DecidableEq β] (x : β) :
    ∀ (l : List α) (k : β),
      (x ∈ (dedupKeyAux key k l).map key ∨ x = k) ↔
        (x ∈ l.map key ∨ x = k) := by
  intro l
  induction l with
  | nil => intro k; simp [dedupKeyAux]
  | cons a l ih =>
    intro k
    simp only [dedupKeyAux]
    by_cases h : key a = k
    · simp only [h, if_true]
      rw [ih k]
      simp only [List.map_cons, List.mem_cons, h]
      tauto
    · simp only [h, if_false]
      have h2 := ih (key a)
      simp only [List.map_cons, List.mem_cons] at h2 ⊢
      tauto

theorem dedupByKey_mem_key (key : α → β) [DecidableEq β] (x : β)
    (l : List α) :
    x ∈ (dedupByKey key l).map key ↔ x ∈ l.map key := by
  cases l with
  | nil => simp [dedupByKey]
  | cons a l =>
    simp only [dedupByKey]
    have h2 := dedupKeyAux_mem_key key x l (key a)
    simp only [List.map_cons, List.mem_cons] at h2 ⊢
    tauto

theorem dedupKeyAux_nodup (key : α → β) [DecidableEq β]
    (kle : β → β → Bool) (P : β → Prop)
    (htrans : ∀ x y z, kle x y = true → kle y z = true → kle x z = true)
    (hanti : ∀ x y, P x → P y → kle x y = true → kle y x = true → x = y) :
    ∀ (l : List α) (k : β),
      l.Pairwise (fun a b => kle (key a) (key b) = true) →
      (∀ a ∈ l, P (key a)) → P k →
      (∀ a ∈ l, kle k (key a) = true) →
      ((dedupKeyAux key k l).map key).Nodup ∧
        ∀ a ∈ dedupKeyAux key k l, key a ≠ k ∧ kle k (key a) = true := by
  intro l
  induction l with
  | nil =>
    intro k _ _ _ _
    exact ⟨by simp [dedupKeyAux], by simp [dedupKeyAux]⟩
  | cons a l ih =>
    intro k hpair hP hPk hk
    obtain ⟨ha, hpl⟩ := List.pairwise_cons.mp hpair
    have hPl : ∀ b ∈ l, P (key b) := fun b hb => hP b (List.mem_cons_of_mem a hb)
    have hPa : P (key a) := hP a (List.mem_cons_self a l)
    simp only [dedupKeyAux]
    by_cases h : key a = k
    · simp only [h, if_true]
      refine ih k hpl hPl hPk ?_
      intro b hb
      have := ha b hb
      rw [h] at this
      exact this
    · simp only [h, if_false]
      obtain ⟨nd, hprop⟩ := ih (key a) hpl hPl hPa ha
      constructor
      · simp only [List.map_cons, List.nodup_cons]
        refine ⟨?_, nd⟩
        intro hmem
        obtain ⟨b, hb, hkb⟩ := List.mem_map.mp hmem
        exact (hprop b hb).1 hkb
      · intro b hb
        rcases List.mem_cons.mp hb with rfl | hb
        · exact ⟨h, hk b (List.mem_cons_self b l)⟩
        · obtain ⟨hne, hle⟩ := hprop b hb
          constructor
          · intro hbk
            rw [hbk] at hle
            exact h (hanti (key a) k hPa hPk hle (hk a (List.mem_cons_self a l)))
          · exact htrans k (key a) (key b)
              (hk a (List.mem_cons_self a l)) hle

theorem dedupByKey_nodup (key : α → β) [DecidableEq β]
    (kle : β → β → Bool) (P : β → Prop)
    (htrans : ∀ x y z, kle x y = true → kle y z = true → kle x z = true)
    (hanti : ∀ x y, P x → P y → kle x y = true → kle y x = true → x = y)
    (l : List α)
    (hpair : l.Pairwise (fun a b => kle (key a) (key b) = true))
    (hP : ∀ a ∈ l, P (key a)) :
    ((dedupByKey key l).map key).Nodup := by
  cases l with
  | nil => simp [dedupByKey]
  | cons a l =>
    obtain ⟨ha, hpl⟩ := List.pairwise_cons.mp hpair
    obtain ⟨nd, hprop⟩ :=
      dedupKeyAux_nodup key kle P htrans hanti l (key a) hpl
        (fun b hb => hP b (List.mem_cons_of_mem a hb))
        (hP a (List.mem_cons_self a l)) ha
    simp only [dedupByKey, List.map_cons, List.nodup_cons]
    refine ⟨?_, nd⟩
    intro hmem
    obtain ⟨b, hb, hkb⟩ := List.mem_map.mp hmem
    exact (hprop b hb).1 hkb

/-! ### Properties of the aggregation pipeline -/

theorem sortByKey_map_mem (le : α → α → Bool) (f : α → γ) (l : List α)
    (x : γ) : x ∈ (sortByKey le l).map f ↔ x ∈ l.map f :=
  (List.Perm.map f (sortByKey_perm le l)).mem_iff

theorem sortByKey_map_nodup (le : α → α → Bool) (f : α → γ) (l : List α) :
    ((sortByKey le l).map f).Nodup ↔ (l.map f).Nodup :=
  (List.Perm.map f (sortByKey_perm le l)).nodup_iff

theorem set_cmds_text_mem (hash : String → Nat) (cmds : List CommandInfo)
    (t : CommandText) :
    t ∈ (set_cmds hash cmds).map (fun e => e.text) ↔
      t ∈ (cmds.filter (fun e => !e.text.hide_help)).map (fun e => e.text) := by
  simp only [set_cmds]
  rw [sortByKey_map_mem, dedupByKey_mem_key, sortByKey_map_mem]

theorem mem_of_mem_set_cmds {hash : String → Nat} {cmds : List CommandInfo}
    {e : CommandInfo} (h : e ∈ set_cmds hash cmds) :
    e ∈ cmds.filter (fun x => !x.text.hide_help) := by
  simp only [set_cmds] at h
  have h1 := (sortByKey_perm _ _).mem_iff.mp h
  have h2 := (dedupByKey_sublist _ _).subset h1
  exact (sortByKey_perm _ _).mem_iff.mp h2

theorem set_cmds_pairwise_hash (hash : String → Nat)
    (cmds : List CommandInfo) :
    (set_cmds hash cmds).Pairwise
      (fun a b => decide (hash a.text.group ≤ hash b.text.group) = true) := by
  refine sortByKey_pairwise ?_ ?_ _
  · intro x y
    simp only [decide_eq_true_eq]
    exact Nat.le_total _ _
  · intro x y z
    simp only [decide_eq_true_eq]
    exact Nat.le_trans

theorem set_cmds_text_nodup (hash : String → Nat)
    (cmds : List CommandInfo) :
    ((set_cmds hash cmds).map (fun e => e.text)).Nodup := by
  simp only [set_cmds]
  rw [sortByKey_map_nodup]
  refine dedupByKey_nodup (fun (e : CommandInfo) => e.text) textLe (fun _ => True)
    textLe_trans (fun x y _ _ hx hy => textLe_antisymm x y hx hy) _
    ?_ (fun _ _ => trivial)
  exact sortByKey_pairwise
    (fun (x y : CommandInfo) => textLe_total x.text y.text)
    (fun (x y z : CommandInfo) => textLe_trans x.text y.text z.text) _

theorem groupsOf_pairwise (hash : String → Nat) (b : List CommandInfo) :
    (groupsOf (set_cmds hash b)).Pairwise
      (fun g h => decide (hash g ≤ hash h) = true) := by
  have hpair : ((set_cmds hash b).map (fun e => e.text.group)).Pairwise
      (fun g1 g2 => decide (hash g1 ≤ hash g2) = true) :=
    List.pairwise_map.mpr (set_cmds_pairwise_hash hash b)
  exact hpair.sublist (dedupByKey_sublist id _)

theorem groupsOf_mem (hash : String → Nat) (b : List CommandInfo)
    (g : String) :
    g ∈ groupsOf (set_cmds hash b) ↔
      g ∈ (b.filter (fun e => !e.text.hide_help)).map
        (fun e => e.text.group) := by
  unfold groupsOf
  have h1 : g ∈ dedupByKey id ((set_cmds hash b).map (fun e => e.text.group))
      ↔ g ∈ (set_cmds hash b).map (fun e => e.text.group) := by
    have h0 := dedupByKey_mem_key id g
      ((set_cmds hash b).map (fun e => e.text.group))
    simpa [List.map_id] using h0
  rw [h1]
  constructor
  · intro h
    obtain ⟨e, he, rfl⟩ := List.mem_map.mp h
    exact List.mem_map.mpr ⟨e, mem_of_mem_set_cmds he, rfl⟩
  · intro h
    obtain ⟨e, he, rfl⟩ := List.mem_map.mp h
    have h2 : e.text ∈ (set_cmds hash b).map (fun x => x.text) :=
      (set_cmds_text_mem hash b e.text).mpr (List.mem_map.mpr ⟨e, he, rfl⟩)
    obtain ⟨f, hf, hft⟩ := List.mem_map.mp h2
    exact List.mem_map.mpr ⟨f, hf, by rw [hft]⟩

theorem groupsOf_nodup (hash : String → Nat) (b : List CommandInfo)
    (hinj : GroupInj hash b) : (groupsOf (set_cmds hash b)).Nodup := by
  have hpair : ((set_cmds hash b).map (fun e => e.text.group)).Pairwise
      (fun g1 g2 => decide (hash g1 ≤ hash g2) = true) :=
    List.pairwise_map.mpr (set_cmds_pairwise_hash hash b)
  have htrans : ∀ x y z : String, decide (hash x ≤ hash y) = true →
      decide (hash y ≤ hash z) = true → decide (hash x ≤ hash z) = true := by
    intro x y z hxy hyz
    simp only [decide_eq_true_eq] at hxy hyz ⊢
    exact Nat.le_trans hxy hyz
  have hanti : ∀ x y : String,
      (∃ e ∈ b, (!e.text.hide_help) = true ∧ e.text.group = x) →
      (∃ e ∈ b, (!e.text.hide_help) = true ∧ e.text.group = y) →
      decide (hash x ≤ hash y) = true → decide (hash y ≤ hash x) = true →
      x = y := by
    intro x y hx hy hxy hyx
    simp only [decide_eq_true_eq] at hxy hyx
    obtain ⟨e, he, _, rfl⟩ := hx
    obtain ⟨f, hf, _, rfl⟩ := hy
    exact hinj e he f hf (Nat.le_antisymm hxy hyx)
  have hP : ∀ a ∈ (set_cmds hash b).map (fun e => e.text.group),
      ∃ e ∈ b, (!e.text.hide_help) = true ∧ e.text.group = id a := by
    intro g hg
    obtain ⟨e, he, rfl⟩ := List.mem_map.mp hg
    have h2 := List.mem_filter.mp (mem_of_mem_set_cmds he)
    exact ⟨e, h2.1, h2.2, rfl⟩
  have hpair2 : ((set_cmds hash b).map (fun e => e.text.group)).Pairwise
      (fun a b => decide (hash (id a) ≤ hash (id b)) = true) := hpair
  have hnd := dedupByKey_nodup id (fun g1 g2 => decide (hash g1 ≤ hash g2))
    (fun g => ∃ e ∈ b, (!e.text.hide_help) = true ∧ e.text.group = g)
    htrans hanti ((set_cmds hash b).map (fun e => e.text.group)) hpair2 hP
  simpa [groupsOf, List.map_id] using hnd

theorem groupsOf_strict (hash : String → Nat) (b : List CommandInfo)
    (hinj : GroupInj hash b) :
    (groupsOf (set_cmds hash b)).Pairwise (fun g h => hash g < hash h) := by
  have h3 := (groupsOf_pairwise hash b).and (groupsOf_nodup hash b hinj)
  refine h3.imp_of_mem ?_
  intro x y hx hy hxy
  obtain ⟨hle, hne⟩ := hxy
  simp only [decide_eq_true_eq] at hle
  rcases Nat.lt_or_ge (hash x) (hash y) with h | h
  · exact h
  · exfalso
    have heq : hash x = hash y := Nat.le_antisymm hle h
    obtain ⟨e, he, rfl⟩ := List.mem_map.mp
      ((groupsOf_mem hash b x).mp hx)
    obtain ⟨f, hf, rfl⟩ := List.mem_map.mp
      ((groupsOf_mem hash b _).mp hy)
    exact hne (hinj e (List.mem_filter.mp he).1 f (List.mem_filter.mp hf).1 heq)

theorem groupsOf_deterministic (hash : String → Nat)
    (b1 b2 : List CommandInfo)
    (h1 : GroupInj hash b1) (h2 : GroupInj hash b2)
    (hsame : ∀ g,
      g ∈ (b1.filter (fun e => !e.text.hide_help)).map (fun e => e.text.group) ↔
      g ∈ (b2.filter (fun e => !e.text.hide_help)).map (fun e => e.text.group)) :
    groupsOf (set_cmds hash b1) = groupsOf (set_cmds hash b2) := by
  have hmem : ∀ g, g ∈ groupsOf (set_cmds hash b1) ↔
      g ∈ groupsOf (set_cmds hash b2) := fun g =>
    (groupsOf_mem hash b1 g).trans
      ((hsame g).trans (groupsOf_mem hash b2 g).symm)
  have hperm := (List.perm_ext_iff_of_nodup
    (groupsOf_nodup hash b1 h1) (groupsOf_nodup hash b2 h2)).mpr hmem
  haveI : IsAntisymm String (fun g h => hash g < hash h) :=
    ⟨fun a b hab hba => absurd hba (Nat.lt_asymm hab)⟩
  exact List.eq_of_perm_of_sorted hperm
    (groupsOf_strict hash b1 h1) (groupsOf_strict hash b2 h2)

/-! ### Cursor invariants -/

theorem move_selection_cmds (s : HelpComponent) (inc : Bool) :
    (move_selection s inc).cmds = s.cmds := by
  by_cases hlen : s.cmds.length - 1 ≤ U16_MAX
  · simp only [move_selection]
    rw [if_pos hlen]
  · simp only [move_selection]
    rw [if_neg hlen]

theorem move_selection_sel (s : HelpComponent) (inc : Bool)
    (hlen : s.cmds.length - 1 ≤ U16_MAX) :
    (move_selection s inc).selection =
      min (max (if inc then min (s.selection + 1) U16_MAX
                else s.selection - 1) 0)
        (s.cmds.length - 1) := by
  simp only [move_selection]
  rw [if_pos hlen]

theorem move_selection_sel_of_large (s : HelpComponent) (inc : Bool)
    (hlen : ¬ s.cmds.length - 1 ≤ U16_MAX) :
    (move_selection s inc).selection = s.selection := by
  simp only [move_selection]
  rw [if_neg hlen]

theorem move_selection_le (s : HelpComponent) (inc : Bool)
    (h : s.selection ≤ U16_MAX) :
    (move_selection s inc).selection ≤ U16_MAX := by
  by_cases hlen : s.cmds.length - 1 ≤ U16_MAX
  · rw [move_selection_sel s inc hlen]
    by_cases hinc : inc = true
    · rw [if_pos hinc]
      simp only [U16_MAX] at h hlen ⊢
      omega
    · rw [if_neg hinc]
      simp only [U16_MAX] at h hlen ⊢
      omega
  · rw [move_selection_sel_of_large s inc hlen]
    exact h

theorem applyOp_selection_le (hash : String → Nat) (s : HelpComponent)
    (op : HelpOp) (h : s.selection ≤ U16_MAX) :
    (applyOp hash s op).selection ≤ U16_MAX := by
  cases op with
  | move inc => exact move_selection_le s inc h
  | setCmds batch => exact h

theorem runOps_selection_le (hash : String → Nat) (ops : List HelpOp) :
    ∀ s : HelpComponent, s.selection ≤ U16_MAX →
      (runOps hash s ops).selection ≤ U16_MAX := by
  induction ops with
  | nil => intro s h; exact h
  | cons op ops ih =>
    intro s h
    exact ih (applyOp hash s op) (applyOp_selection_le hash s op h)

theorem move_selection_bound (s : HelpComponent) (inc : Bool)
    (h : s.selection ≤ U16_MAX) :
    (move_selection s inc).selection ≤
        max 0 ((move_selection s inc).cmds.length - 1) ∧
      ((move_selection s inc).cmds.length = 0 →
        (move_selection s inc).selection = 0) := by
  rw [move_selection_cmds]
  by_cases hlen : s.cmds.length - 1 ≤ U16_MAX
  · rw [move_selection_sel s inc hlen]
    by_cases hinc : inc = true
    · rw [if_pos hinc]
      refine ⟨?_, fun h0 => ?_⟩ <;> omega
    · rw [if_neg hinc]
      refine ⟨?_, fun h0 => ?_⟩ <;> omega
  · rw [move_selection_sel_of_large s inc hlen]
    simp only [U16_MAX] at h hlen
    refine ⟨?_, fun h0 => ?_⟩ <;> omega

/-! ### Claim theorems -/

/-- C1: after `set_cmds`, entries sharing a `group` are contiguous (the
collapsed group sequence of the aggregated list is duplicate-free), and
the group order is a deterministic function of `hash(group)`: two runs on
batches exposing the same non-hidden group keys — in particular any
reordering of one batch — produce the same group sequence. Stated for any
hash that distinguishes the group keys occurring in the batches, as the
external hash collaborator is assumed to do. -/
theorem set_cmds_groups_contiguous_deterministic
    (hash : String → Nat) (b1 b2 : List CommandInfo)
    (h1 : GroupInj hash b1) (h2 : GroupInj hash b2)
    (hsame : ∀ g,
      g ∈ (b1.filter (fun e => !e.text.hide_help)).map
        (fun e => e.text.group) ↔
      g ∈ (b2.filter (fun e => !e.text.hide_help)).map
        (fun e => e.text.group)) :
    (groupsOf (set_cmds hash b1)).Nodup ∧
      groupsOf (set_cmds hash b1) = groupsOf (set_cmds hash b2) :=
  ⟨groupsOf_nodup hash b1 h1,
    groupsOf_deterministic hash b1 b2 h1 h2 hsame⟩

/-- Witness for C1: a concrete batch and its reversal yield the same
duplicate-free group sequence. -/
theorem set_cmds_groups_contiguous_deterministic_witness :
    (groupsOf (set_cmds demoHash [cA, cB, cC])).Nodup ∧
      groupsOf (set_cmds demoHash [cA, cB, cC]) =
        groupsOf (set_cmds demoHash [cC, cB, cA]) :=
  set_cmds_groups_contiguous_deterministic demoHash [cA, cB, cC]
    [cC, cB, cA] (by unfold GroupInj; decide) (by unfold GroupInj; decide)
    (by
      intro g
      simp [cA, cB, cC]
      tauto)

/-- C2: starting from the initial state, after any sequence of moves and
`set_cmds` replacements followed by one more move, the cursor lies within
`[0, max 0 (len-1)]` for the current list length (forward saturates below
the length, backward saturates at zero), and on an empty list the cursor
is 0 after the move. -/
theorem cursor_clamped (hash : String → Nat) (ops : List HelpOp)
    (inc : Bool) :
    (move_selection (runOps hash HelpComponent.new ops) inc).selection ≤
        max 0
          ((move_selection (runOps hash HelpComponent.new ops) inc).cmds.length
            - 1) ∧
      ((move_selection (runOps hash HelpComponent.new ops) inc).cmds.length
          = 0 →
        (move_selection (runOps hash HelpComponent.new ops) inc).selection
          = 0) :=
  move_selection_bound (runOps hash HelpComponent.new ops) inc
    (runOps_selection_le hash ops HelpComponent.new (Nat.zero_le _))

/-- Witness for C2 at a concrete operation sequence. -/
theorem cursor_clamped_witness :
    (move_selection
        (runOps demoHash HelpComponent.new [HelpOp.setCmds [cA, cB]])
        true).selection ≤
      max 0
        ((move_selection
            (runOps demoHash HelpComponent.new [HelpOp.setCmds [cA, cB]])
            true).cmds.length - 1) ∧
      ((move_selection
          (runOps demoHash HelpComponent.new [HelpOp.setCmds [cA, cB]])
          true).cmds.length = 0 →
        (move_selection
            (runOps demoHash HelpComponent.new [HelpOp.setCmds [cA, cB]])
            true).selection = 0) :=
  cursor_clamped demoHash [HelpOp.setCmds [cA, cB]] true

/-- C3: the event handler is modal on visibility. Hidden: exactly the
open-help key is consumed (the state becomes shown); every other event is
reported unconsumed with the state unchanged. Shown: every key event is
consumed — close hides, down/up move the selection, any other key changes
nothing. -/
theorem event_modal (s : HelpComponent) (ev : Event) (k : Key) :
    (s.visible = false →
      s.event (Event.key Key.open_help) = (s.show, true) ∧
        (ev ≠ Event.key Key.open_help → s.event ev = (s, false))) ∧
      (s.visible = true →
        (s.event (Event.key k)).2 = true ∧
          s.event (Event.key Key.exit_popup) = (s.hide, true) ∧
          s.event (Event.key Key.move_down) =
            (move_selection s true, true) ∧
          s.event (Event.key Key.move_up) =
            (move_selection s false, true) ∧
          (k ≠ Key.exit_popup → k ≠ Key.move_down → k ≠ Key.move_up →
            s.event (Event.key k) = (s, true))) := by
  constructor
  · intro hv
    constructor
    · simp [HelpComponent.event, hv]
    · intro hne
      simp [HelpComponent.event, hv, hne]
  · intro hv
    refine ⟨?_, ?_, ?_, ?_, ?_⟩
    · cases k <;> simp [HelpComponent.event, hv]
    · simp [HelpComponent.event, hv]
    · simp [HelpComponent.event, hv]
    · simp [HelpComponent.event, hv]
    · intro h1 h2 h3
      cases k <;> simp_all [HelpComponent.event]

/-- Witness for C3: concrete hidden and shown states. -/
theorem event_modal_witness :
    HelpComponent.new.event (Event.key Key.open_help) =
        (HelpComponent.new.show, true) ∧
      HelpComponent.new.event (Event.key (Key.other 3)) =
        (HelpComponent.new, false) ∧
      HelpComponent.new.show.event (Event.key (Key.other 3)) =
        (HelpComponent.new.show, true) :=
  ⟨((event_modal HelpComponent.new (Event.key (Key.other 3))
      (Key.other 3)).1 rfl).1,
   ((event_modal HelpComponent.new (Event.key (Key.other 3))
      (Key.other 3)).1 rfl).2 (by decide),
   ((event_modal HelpComponent.new.show (Event.key (Key.other 3))
      (Key.other 3)).2 rfl).2.2.2.2 (by decide) (by decide) (by decide)⟩

/-- C4: the command report depends only on visibility and the force flag:
shown and not forced, the report is exactly scroll and close-popup with
every previously accumulated command cleared; hidden, exactly one command
— open-help, carrying display order 99 — is appended to the accumulated
list. -/
theorem commands_report (s : HelpComponent) (out : List CommandInfo)
    (force_all : Bool) :
    (s.visible = true → s.commands out false =
        ([CommandInfo.new SCROLL true true,
          CommandInfo.new CLOSE_POPUP true true],
          CommandBlocking.blocking)) ∧
      (s.visible = false → s.commands out force_all =
          (out ++ [{ CommandInfo.new HELP_OPEN true true with order := 99 }],
            CommandBlocking.passingOn) ∧
        ({ CommandInfo.new HELP_OPEN true true with
            order := 99 } : CommandInfo).order = 99) := by
  constructor
  · intro hv
    simp [HelpComponent.commands, hv, visibility_blocking]
  · intro hv
    refine ⟨?_, rfl⟩
    cases force_all <;>
      simp [HelpComponent.commands, hv, visibility_blocking]

/-- Witness for C4: concrete shown and hidden reports. -/
theorem commands_report_witness :
    HelpComponent.new.show.commands [] false =
        ([CommandInfo.new SCROLL true true,
          CommandInfo.new CLOSE_POPUP true true],
          CommandBlocking.blocking) ∧
      HelpComponent.new.commands [] false =
        ([{ CommandInfo.new HELP_OPEN true true with order := 99 }],
          CommandBlocking.passingOn) :=
  ⟨(commands_report HelpComponent.new.show [] false).1 rfl,
   by
     have h := ((commands_report HelpComponent.new [] false).2 rfl).1
     simpa using h⟩

/-- C5 counterexample: the list stored by `set_cmds` is not ordered by
`order` within a group — for the scenario batch, group X stores A
(order 1) before B (order 0), since `set_cmds` sorts by descriptor
identity and group hash only. -/
theorem set_cmds_not_order_sorted :
    ¬ groupOrderSorted (set_cmds demoHash [cA, cB, cC]) := by
  unfold groupOrderSorted
  decide

/-- C5 (amended): within each group as laid out by `get_text`, entries are
ordered by `order` ascending — the per-group `order` sort happens at
render time, not in the stored aggregated list. -/
theorem get_text_blocks_order_sorted (cmds : List CommandInfo)
    (blk : String × List CommandInfo) (hblk : blk ∈ get_textBlocks cmds) :
    blk.2.Pairwise (fun a b => a.order ≤ b.order) := by
  obtain ⟨p, hp, rfl⟩ := List.mem_map.mp hblk
  have htot : ∀ x y : CommandInfo, decide (x.order ≤ y.order) = true ∨
      decide (y.order ≤ x.order) = true := by
    intro x y
    simp only [decide_eq_true_eq]
    exact Int.le_total x.order y.order
  have htr : ∀ x y z : CommandInfo, decide (x.order ≤ y.order) = true →
      decide (y.order ≤ z.order) = true →
      decide (x.order ≤ z.order) = true := by
    intro x y z hxy hyz
    simp only [decide_eq_true_eq] at hxy hyz ⊢
    exact Int.le_trans hxy hyz
  have hpw := sortByKey_pairwise htot htr p.2
  exact hpw.imp (fun hab => of_decide_eq_true hab)

/-- Witness for the amended C5 at the scenario batch: the rendered block
of group X lists B (order 0) before A (order 1). -/
theorem get_text_blocks_order_sorted_witness :
    (("X", [cB, cA]) : String × List CommandInfo).2.Pairwise
      (fun a b => a.order ≤ b.order) :=
  get_text_blocks_order_sorted (set_cmds demoHash [cA, cB, cC])
    ("X", [cB, cA]) (by decide)

/-- C6: no descriptor with the hidden-from-help flag survives
`set_cmds`. -/
theorem set_cmds_no_hidden (hash : String → Nat) (cmds : List CommandInfo)
    (e : CommandInfo) (h : e ∈ set_cmds hash cmds) :
    e.text.hide_help = false := by
  have h2 := List.mem_filter.mp (mem_of_mem_set_cmds h)
  simpa using h2.2

/-- Witness for C6: a surviving entry of a batch with a hidden entry. -/
theorem set_cmds_no_hidden_witness : cB.text.hide_help = false :=
  set_cmds_no_hidden demoHash [cB, cHidden] cB (by decide)

/-- C7: the aggregated list holds each distinct descriptor identity
exactly once: the identity projection of the result is duplicate-free, and
an identity occurs in the result iff it occurs among the non-hidden
entries of the batch. -/
theorem set_cmds_dedup (hash : String → Nat) (cmds : List CommandInfo) :
    ((set_cmds hash cmds).map (fun e => e.text)).Nodup ∧
      ∀ t : CommandText,
        t ∈ (set_cmds hash cmds).map (fun e => e.text) ↔
          t ∈ (cmds.filter (fun e => !e.text.hide_help)).map
            (fun e => e.text) :=
  ⟨set_cmds_text_nodup hash cmds, fun t => set_cmds_text_mem hash cmds t⟩

/-- Witness for C7 at a batch with an exact duplicate. -/
theorem set_cmds_dedup_witness :
    ((set_cmds demoHash [cB, cB, cC]).map (fun e => e.text)).Nodup ∧
      (cB.text ∈ (set_cmds demoHash [cB, cB, cC]).map (fun e => e.text) ↔
        cB.text ∈ (([cB, cB, cC] : List CommandInfo).filter
          (fun e => !e.text.hide_help)).map (fun e => e.text)) :=
  ⟨(set_cmds_dedup demoHash [cB, cB, cC]).1,
   (set_cmds_dedup demoHash [cB, cB, cC]).2 cB.text⟩

/-- C8: the scroll offset used when drawing equals
`max 0 (cursor - viewport_third)` where the viewport third is the fixed
compile-time constant `SIZE.2 / 3 = 8`. -/
theorem draw_scroll_eq (selection : Nat) :
    (draw_scroll selection : Int) =
        max 0 ((selection : Int) - (scroll_threshold : Int)) ∧
      scroll_threshold = 8 := by
  refine ⟨?_, rfl⟩
  simp only [draw_scroll]
  omega

/-- C9: handling the open-help key while hidden flips visibility to shown
and nothing else: the aggregated list and the cursor are unchanged. -/
theorem open_help_flips_only (s : HelpComponent) (h : s.visible = false) :
    s.event (Event.key Key.open_help) = (s.show, true) ∧
      (s.event (Event.key Key.open_help)).1.cmds = s.cmds ∧
      (s.event (Event.key Key.open_help)).1.selection = s.selection ∧
      (s.event (Event.key Key.open_help)).1.visible = true := by
  have he : s.event (Event.key Key.open_help) = (s.show, true) := by
    simp [HelpComponent.event, h]
  refine ⟨he, ?_, ?_, ?_⟩ <;> rw [he] <;> rfl

/-- Witness for C9 at the initial state. -/
theorem open_help_flips_only_witness :
    HelpComponent.new.event (Event.key Key.open_help) =
        (HelpComponent.new.show, true) ∧
      (HelpComponent.new.event (Event.key Key.open_help)).1.cmds =
        HelpComponent.new.cmds ∧
      (HelpComponent.new.event (Event.key Key.open_help)).1.selection =
        HelpComponent.new.selection ∧
      (HelpComponent.new.event (Event.key Key.open_help)).1.visible =
        true :=
  open_help_flips_only HelpComponent.new rfl

/-- C10: while shown, every event — keyboard or not — is reported
consumed, and any event other than the close, move-down and move-up keys
leaves the entire state unchanged. -/
theorem event_shown_swallows (s : HelpComponent) (ev : Event)
    (h : s.visible = true) :
    (s.event ev).2 = true ∧
      (ev ≠ Event.key Key.exit_popup → ev ≠ Event.key Key.move_down →
        ev ≠ Event.key Key.move_up → (s.event ev).1 = s) := by
  constructor
  · simp [HelpComponent.event, h]
  · intro h1 h2 h3
    cases ev with
    | key k => cases k <;> simp_all [HelpComponent.event]
    | resize a b => simp [HelpComponent.event, h]
    | mouse m => simp [HelpComponent.event, h]

/-- Witness for C10 at a shown state and a mouse event. -/
theorem event_shown_swallows_witness :
    (HelpComponent.new.show.event (Event.mouse 0)).2 = true ∧
      (HelpComponent.new.show.event (Event.mouse 0)).1 =
        HelpComponent.new.show :=
  ⟨(event_shown_swallows HelpComponent.new.show (Event.mouse 0) rfl).1,
   (event_shown_swallows HelpComponent.new.show (Event.mouse 0) rfl).2
     (by decide) (by decide) (by decide)⟩

